import Mathlib

/-!
Verification development for the trade-data-enhancer core: the bar
aggregator and the True-Range / ATR engine, embedded from the Python
sources (`SP500_ATR_Calculation.py`, `daily_a_t_r_from_hourly_data.py`,
`atr_enhanced_minute_calc.py`, `aggregate-data.py`) over exact rational
arithmetic.  Pandas "NaN / no value" cells are modelled as `Option ℚ`
with `none` as the explicit absent marker.
-/

/-- One OHLCV bar: `timestamp` in epoch seconds, prices and volume as
rationals.  (`open` is a Lean keyword, hence `open_`.) -/
structure Bar where
  timestamp : Nat
  open_ : ℚ
  high : ℚ
  low : ℚ
  close : ℚ
  volume : ℚ
  deriving DecidableEq, Repr

/-- True range of bar `b` given the previous close: the elementwise
`max(high - low, |high - prev_close|, |low - prev_close|)` computed by
both ATR scripts. -/
def trueRangeAux (prevClose : ℚ) (b : Bar) : ℚ :=
  max (b.high - b.low) (max |b.high - prevClose| |b.low - prevClose|)

/-- True ranges of a tail of bars, threading the previous close. -/
def trueRangesFrom (prevClose : ℚ) : List Bar → List ℚ
  | [] => []
  | b :: rest => trueRangeAux prevClose b :: trueRangesFrom b.close rest

/-- The engine's per-bar true-range column: row 0 has no previous close,
so its NaN-skipping row max followed by `fillna(range)` yields
`high - low`; every later row is `trueRangeAux` of the previous close
(`SP500_ATR_Calculation.py` lines 22-28). -/
def trueRanges : List Bar → List ℚ
  | [] => []
  | b :: rest => (b.high - b.low) :: trueRangesFrom b.close rest

/-- The Wilder smoothing step
`atr_values[i] = (previous_atr * (PERIOD - 1) + current_tr) / PERIOD`
(`SP500_ATR_Calculation.py` line 43). -/
def wilderStep (period : Nat) (prevAtr tr : ℚ) : ℚ :=
  (prevAtr * ((period : ℚ) - 1) + tr) / (period : ℚ)

/-- The smoothed values after the seed, one per remaining true range. -/
def wilderFrom (period : Nat) (prevAtr : ℚ) : List ℚ → List ℚ
  | [] => []
  | t :: rest =>
    wilderStep period prevAtr t :: wilderFrom period (wilderStep period prevAtr t) rest

/-- The `atr_values` list built by `SP500_ATR_Calculation.py` lines 31-43
(identically `daily_a_t_r_from_hourly_data.py` lines 42-53): start from
`[np.nan] * len(df)`; when `len(df) >= PERIOD`, place the simple mean of
the first `PERIOD` true ranges at index `PERIOD - 1` and fill every
later index with Wilder's recursion. -/
def atr_values (period : Nat) (tr : List ℚ) : List (Option ℚ) :=
  if tr.length < period then List.replicate tr.length none
  else
    List.replicate (period - 1) (none : Option ℚ) ++
      some ((tr.take period).sum / (period : ℚ)) ::
        (wilderFrom period ((tr.take period).sum / (period : ℚ)) (tr.drop period)).map some

/-- Embedding of `close.shift(1)`: the series moved down one row, NaN in row 0. -/
def shift1 (l : List ℚ) : List (Option ℚ) :=
  (none :: l.map some).take l.length

/-- The rolling implementation's true-range series
(`atr_enhanced_minute_calc.py` lines 9-15): `np.maximum` propagates the
NaN that `close.shift(1)` puts in row 0, so row 0 is absent. -/
def trRolling (high low close : List ℚ) : List (Option ℚ) :=
  (high.zip (low.zip (shift1 close))).map (fun p =>
    match p.2.2 with
    | none => none
    | some pc => some (max (p.1 - p.2.1) (max |p.1 - pc| |p.2.1 - pc|)))

/-- Embedding of `tr.rolling(window=period).mean()`: absent until a full window of
`period` present values ends at the row, else the window's mean. -/
def rollingMean (window : Nat) (l : List (Option ℚ)) : List (Option ℚ) :=
  (List.range l.length).map (fun i =>
    if window ≤ i + 1 then
      if ((l.take (i + 1)).drop (i + 1 - window)).all Option.isSome then
        some (((((l.take (i + 1)).drop (i + 1 - window)).filterMap id).sum) / (window : ℚ))
      else none
    else none)

/-- Embedding of `calculate_atr` (`atr_enhanced_minute_calc.py` lines 5-16): the
rolling-window simple moving average of true ranges. -/
def calculate_atr (high low close : List ℚ) (period : Nat) : List (Option ℚ) :=
  rollingMean period (trRolling high low close)

/-- Embedding of `determine_period_for_14_days` (`atr_enhanced_minute_calc.py`
lines 19-36): the period-by-granularity lookup, raising on any string
outside the closed enumeration. -/
def determine_period_for_14_days (timeframe : String) : Except String Nat :=
  if timeframe = "minute" then Except.ok (1440 * 14)
  else if timeframe = "hourly" then Except.ok (24 * 14)
  else if timeframe = "daily" then Except.ok 14
  else Except.error ("Unsupported timeframe: " ++ timeframe)

/-- Hour-bucket key: the timestamp truncated to its hour. -/
def hourKey (t : Nat) : Nat := t / 3600

/-- The hour bucket a bar falls in. -/
def bucketKey (b : Bar) : Nat := hourKey b.timestamp

/-- The source bars of one bucket, in input order. -/
def bucketOf (bars : List Bar) (k : Nat) : List Bar :=
  bars.filter (fun b => bucketKey b == k)

/-- Maximum of `a` and the elements of `l`. -/
def foldMax (a : ℚ) (l : List ℚ) : ℚ := l.foldl max a

/-- Minimum of `a` and the elements of `l`. -/
def foldMin (a : ℚ) (l : List ℚ) : ℚ := l.foldl min a

/-- The aggregated bar of one non-empty bucket `b :: rest`
(`aggregate-data.py` lines 54-61): `Timestamp`/`Open` from the first
row, `High` the max, `Low` the min, `Close` from the last row,
`Volume` the sum. -/
def aggBucket (b : Bar) (rest : List Bar) : Bar :=
  { timestamp := b.timestamp
    open_ := b.open_
    high := foldMax b.high (rest.map Bar.high)
    low := foldMin b.low (rest.map Bar.low)
    close := ((b :: rest).getLast (List.cons_ne_nil b rest)).close
    volume := ((b :: rest).map Bar.volume).sum }

/-- Embedding of `aggregate_to_hourly` (`aggregate-data.py` lines 52-63): one output
bar per non-empty hour bucket, `.dropna()` discarding empty buckets;
bucket order is first-appearance order, which equals ascending hour
order on the chronologically sorted input the script feeds it. -/
def aggregate_to_hourly (bars : List Bar) : List Bar :=
  ((bars.map bucketKey).dedup).filterMap (fun k =>
    match bucketOf bars k with
    | [] => none
    | b :: rest => some (aggBucket b rest))

/-- A small concrete bar sequence used to instantiate theorems:
two bars in hour 0, then one bar in each of hours 1, 2 and 3. -/
def demoBars : List Bar :=
  [⟨0, 100, 105, 95, 100, 3⟩, ⟨1800, 100, 108, 98, 104, 2⟩,
   ⟨3600, 104, 110, 100, 106, 5⟩, ⟨7200, 106, 109, 101, 103, 4⟩,
   ⟨10800, 103, 111, 99, 107, 1⟩]

/-- A concrete sequence already at hourly granularity: one bar per hour. -/
def hourlyDemoBars : List Bar :=
  [⟨3600, 104, 110, 100, 106, 5⟩, ⟨7200, 106, 109, 101, 103, 4⟩,
   ⟨10800, 103, 111, 99, 107, 1⟩]

/-- Three bars on which the rolling and the recursive ATR disagree. -/
def cexBars : List Bar :=
  [⟨0, 5, 10, 0, 5, 1⟩, ⟨60, 4, 8, 0, 4, 1⟩, ⟨120, 6, 12, 0, 6, 1⟩]

theorem trueRangesFrom_length (pc : ℚ) (l : List Bar) :
    (trueRangesFrom pc l).length = l.length := by
  induction l generalizing pc with
  | nil => rfl
  | cons b rest ih => simp [trueRangesFrom, ih]

theorem trueRanges_length (bars : List Bar) :
    (trueRanges bars).length = bars.length := by
  cases bars with
  | nil => rfl
  | cons b rest => simp [trueRanges, trueRangesFrom_length]

theorem wilderFrom_length (period : Nat) (a : ℚ) (l : List ℚ) :
    (wilderFrom period a l).length = l.length := by
  induction l generalizing a with
  | nil => rfl
  | cons t rest ih => simp [wilderFrom, ih]

theorem wilderFrom_getElem_zero (period : Nat) (a t : ℚ) (rest : List ℚ) :
    (wilderFrom period a (t :: rest))[0]? = some (wilderStep period a t) := by
  simp [wilderFrom]

theorem wilderFrom_getElem_succ (period : Nat) (a : ℚ) (l : List ℚ) (j : Nat) (b t : ℚ)
    (hb : (wilderFrom period a l)[j]? = some b) (ht : l[j + 1]? = some t) :
    (wilderFrom period a l)[j + 1]? = some (wilderStep period b t) := by
  induction l generalizing a j with
  | nil => simp at ht
  | cons t0 rest ih =>
    cases j with
    | zero =>
      rw [wilderFrom_getElem_zero] at hb
      have hb2 : b = wilderStep period a t0 := by
        exact (Option.some_injective _ hb.symm)
      cases rest with
      | nil => simp at ht
      | cons t1 r2 =>
        have ht2 : t1 = t := by simpa using ht
        subst hb2; subst ht2
        simp [wilderFrom]
    | succ j' =>
      have hb2 : (wilderFrom period (wilderStep period a t0) rest)[j']? = some b := by
        simpa [wilderFrom] using hb
      have ht2 : rest[j' + 1]? = some t := by simpa using ht
      have := ih (wilderStep period a t0) j' hb2 ht2
      simpa [wilderFrom] using this

theorem wilderFrom_getElem_isSome (period : Nat) (a : ℚ) (l : List ℚ) (j : Nat)
    (hj : j < l.length) : ∃ b, (wilderFrom period a l)[j]? = some b := by
  have hl : j < (wilderFrom period a l).length := by rw [wilderFrom_length]; exact hj
  exact ⟨_, List.getElem?_eq_getElem hl⟩

theorem atr_values_length (period : Nat) (tr : List ℚ) (hp : 0 < period) :
    (atr_values period tr).length = tr.length := by
  unfold atr_values
  split
  · simp
  · rename_i h
    push_neg at h
    simp [wilderFrom_length]
    omega

theorem atr_values_getElem_warmup (period : Nat) (tr : List ℚ) (i : Nat)
    (hi : i < tr.length) (hlt : i < period - 1) :
    (atr_values period tr)[i]? = some none := by
  unfold atr_values
  split
  · rw [List.getElem?_replicate]
    simp [hi]
  · rw [List.getElem?_append_left (by simpa using hlt), List.getElem?_replicate]
    simp [hlt]

theorem atr_values_getElem_seed (period : Nat) (tr : List ℚ)
    (hn : period ≤ tr.length) :
    (atr_values period tr)[period - 1]? =
      some (some ((tr.take period).sum / (period : ℚ))) := by
  unfold atr_values
  split
  · omega
  · rw [List.getElem?_append_right (by simp)]
    simp

theorem atr_values_getElem_tail (period : Nat) (tr : List ℚ) (i : Nat)
    (hp : 0 < period) (hge : period ≤ i) :
    (atr_values period tr)[i]? =
      ((wilderFrom period ((tr.take period).sum / (period : ℚ)) (tr.drop period)).map
        some)[i - period]? := by
  unfold atr_values
  split
  · rename_i h
    have hdrop : tr.drop period = [] := List.drop_eq_nil_of_le (by omega)
    rw [List.getElem?_replicate, hdrop]
    simp [wilderFrom]
    omega
  · rw [List.getElem?_append_right (by simp; omega)]
    have harith : i - (period - 1) = (i - period) + 1 := by omega
    rw [List.length_replicate, harith, List.getElem?_cons_succ]

theorem atr_values_recursion (period : Nat) (tr : List ℚ) (i : Nat)
    (hp : 0 < period) (hpi : period ≤ i) (hin : i < tr.length) :
    ∃ a t, (atr_values period tr)[i - 1]? = some (some a) ∧
      tr[i]? = some t ∧
      (atr_values period tr)[i]? = some (some (wilderStep period a t)) := by
  have hn : period ≤ tr.length := le_trans hpi (le_of_lt hin)
  obtain ⟨t, ht⟩ : ∃ t, tr[i]? = some t := ⟨_, List.getElem?_eq_getElem hin⟩
  rcases Nat.exists_eq_add_of_le hpi with ⟨j, rfl⟩
  cases j with
  | zero =>
    have hr0 : (tr.drop period)[0]? = some t := by
      rw [List.getElem?_drop]; simpa using ht
    refine ⟨(tr.take period).sum / (period : ℚ), t, ?_, ht, ?_⟩
    · simpa using atr_values_getElem_seed period tr hn
    · rw [atr_values_getElem_tail period tr (period + 0) hp (by omega)]
      cases hre : tr.drop period with
      | nil => rw [hre] at hr0; simp at hr0
      | cons t0 r2 =>
        have ht0 : t0 = t := by rw [hre] at hr0; simpa using hr0
        subst ht0
        have h0 : period + 0 - period = 0 := by omega
        rw [h0, List.getElem?_map, wilderFrom_getElem_zero]
        rfl
  | succ j' =>
    have hjlen : j' < (tr.drop period).length := by
      rw [List.length_drop]; omega
    obtain ⟨b, hb⟩ :=
      wilderFrom_getElem_isSome period ((tr.take period).sum / (period : ℚ))
        (tr.drop period) j' hjlen
    refine ⟨b, t, ?_, ht, ?_⟩
    · have htl := atr_values_getElem_tail period tr (period + j') hp (by omega)
      have h1 : period + (j' + 1) - 1 = period + j' := by omega
      have h2 : period + j' - period = j' := by omega
      rw [h1, htl, h2, List.getElem?_map, hb]
      rfl
    · have ht' : (tr.drop period)[j' + 1]? = some t := by
        rw [List.getElem?_drop]
        have : period + (j' + 1) = period + (j' + 1) := rfl
        simpa [Nat.add_assoc] using ht
      have hstep := wilderFrom_getElem_succ period _ (tr.drop period) j' b t hb ht'
      have h3 : period + (j' + 1) - period = j' + 1 := by omega
      rw [atr_values_getElem_tail period tr (period + (j' + 1)) hp (by omega), h3,
        List.getElem?_map, hstep]
      rfl

theorem atr_values_absent_iff (period : Nat) (tr : List ℚ) (i : Nat)
    (hp : 0 < period) (hi : i < tr.length) :
    ((atr_values period tr)[i]? = some none ↔ i < period - 1) := by
  constructor
  · intro h
    by_contra hge'
    push_neg at hge'
    rcases Nat.lt_or_ge i period with hlt | hge
    · have hi' : i = period - 1 := by omega
      subst hi'
      have hn : period ≤ tr.length := by omega
      rw [atr_values_getElem_seed period tr hn] at h
      simp at h
    · obtain ⟨a, t, _, _, hval⟩ := atr_values_recursion period tr i hp hge hi
      rw [hval] at h; simp at h
  · intro h
    exact atr_values_getElem_warmup period tr i hi h

theorem trueRangesFrom_getElem_succ (pc : ℚ) (l : List Bar) (j : Nat) (prev cur : Bar)
    (hprev : l[j]? = some prev) (hcur : l[j + 1]? = some cur) :
    (trueRangesFrom pc l)[j + 1]? = some (trueRangeAux prev.close cur) := by
  induction l generalizing pc j with
  | nil => simp at hcur
  | cons b rest ih =>
    cases j with
    | zero =>
      have hb : b = prev := by simpa using hprev
      subst hb
      cases rest with
      | nil => simp at hcur
      | cons c r2 =>
        have hc : c = cur := by simpa using hcur
        subst hc
        simp [trueRangesFrom]
    | succ j' =>
      have h1 : rest[j']? = some prev := by simpa using hprev
      have h2 : rest[j' + 1]? = some cur := by simpa using hcur
      have := ih b.close j' h1 h2
      simpa [trueRangesFrom] using this

theorem wilderStep_between (period : Nat) (a t : ℚ) (hp : 0 < period) :
    min a t ≤ wilderStep period a t ∧ wilderStep period a t ≤ max a t := by
  have hq : (0 : ℚ) < (period : ℚ) := by exact_mod_cast hp
  have hq1 : (1 : ℚ) ≤ (period : ℚ) := by exact_mod_cast hp
  unfold wilderStep
  constructor
  · rw [le_div_iff₀ hq]
    rcases le_total a t with h | h
    · rw [min_eq_left h]; nlinarith
    · rw [min_eq_right h]; nlinarith
  · rw [div_le_iff₀ hq]
    rcases le_total a t with h | h
    · rw [max_eq_right h]
      nlinarith [mul_le_mul_of_nonneg_right h (by linarith : (0 : ℚ) ≤ (period : ℚ) - 1)]
    · rw [max_eq_left h]
      nlinarith [mul_le_mul_of_nonneg_right h (by linarith : (0 : ℚ) ≤ (period : ℚ) - 1)]

theorem wilderFrom_nonneg (period : Nat) (hp : 0 < period) :
    ∀ (l : List ℚ) (a : ℚ), 0 ≤ a → (∀ t ∈ l, 0 ≤ t) →
      ∀ x ∈ wilderFrom period a l, 0 ≤ x := by
  intro l
  induction l with
  | nil => intro a _ _ x hx; simp [wilderFrom] at hx
  | cons t rest ih =>
    intro a ha hl x hx
    have ht : 0 ≤ t := hl t (by simp)
    have hstep : 0 ≤ wilderStep period a t :=
      le_trans (le_min ha ht) (wilderStep_between period a t hp).1
    simp only [wilderFrom, List.mem_cons] at hx
    rcases hx with rfl | h
    · exact hstep
    · exact ih (wilderStep period a t) hstep
        (fun t' ht' => hl t' (List.mem_cons_of_mem t ht')) x h

/-- C1: For every bar sequence with at least `period` bars and every
positive `period`, the engine's ATR seeds index `period - 1` with the simple
arithmetic mean of `TrueRange[0..period-1]`, and for every `period ≤ i < n`
it satisfies `ATR[i] = (ATR[i-1] * (period - 1) + TrueRange[i]) / period`. -/
theorem atr_seed_mean_and_wilder_recursion (bars : List Bar) (period : Nat)
    (hp : 0 < period) (hn : period ≤ bars.length) :
    (atr_values period (trueRanges bars))[period - 1]? =
      some (some ((((trueRanges bars).take period).sum) / (period : ℚ))) ∧
    ∀ i, period ≤ i → i < bars.length →
      ∃ a t, (atr_values period (trueRanges bars))[i - 1]? = some (some a) ∧
        (trueRanges bars)[i]? = some t ∧
        (atr_values period (trueRanges bars))[i]? =
          some (some ((a * ((period : ℚ) - 1) + t) / (period : ℚ))) := by
  have hlen := trueRanges_length bars
  constructor
  · exact atr_values_getElem_seed period (trueRanges bars) (by omega)
  · intro i hpi hin
    obtain ⟨a, t, h1, h2, h3⟩ :=
      atr_values_recursion period (trueRanges bars) i hp hpi (by omega)
    exact ⟨a, t, h1, h2, h3⟩

/-- Witness for C1: `demoBars` (5 bars) with period 3. -/
theorem atr_seed_mean_and_wilder_recursion_witness :
    0 < 3 ∧ 3 ≤ demoBars.length ∧
    ((atr_values 3 (trueRanges demoBars))[2]? =
      some (some ((((trueRanges demoBars).take 3).sum) / (3 : ℚ))) ∧
    ∀ i, 3 ≤ i → i < demoBars.length →
      ∃ a t, (atr_values 3 (trueRanges demoBars))[i - 1]? = some (some a) ∧
        (trueRanges demoBars)[i]? = some t ∧
        (atr_values 3 (trueRanges demoBars))[i]? =
          some (some ((a * ((3 : ℚ) - 1) + t) / (3 : ℚ)))) :=
  ⟨by decide, by decide,
    atr_seed_mean_and_wilder_recursion demoBars 3 (by decide) (by decide)⟩

theorem trueRanges_getElem_pos (bars : List Bar) (i : Nat)
    (h0 : 0 < i) (hlen : i < bars.length) :
    ∃ prev cur, bars[i - 1]? = some prev ∧ bars[i]? = some cur ∧
      (trueRanges bars)[i]? = some (trueRangeAux prev.close cur) := by
  obtain ⟨j, rfl⟩ : ∃ j, i = j + 1 := ⟨i - 1, by omega⟩
  cases bars with
  | nil => simp at hlen
  | cons b rest =>
    cases j with
    | zero =>
      cases rest with
      | nil => simp at hlen
      | cons c r2 =>
        refine ⟨b, c, by simp, by simp, ?_⟩
        simp [trueRanges, trueRangesFrom]
    | succ j2 =>
      have hl : j2 + 1 < rest.length := by simp at hlen; omega
      obtain ⟨prev, hprev⟩ : ∃ p, rest[j2]? = some p :=
        ⟨_, List.getElem?_eq_getElem (by omega)⟩
      obtain ⟨cur, hcur⟩ : ∃ c, rest[j2 + 1]? = some c :=
        ⟨_, List.getElem?_eq_getElem (by omega)⟩
      refine ⟨prev, cur, by simpa using hprev, by simpa using hcur, ?_⟩
      have := trueRangesFrom_getElem_succ b.close rest j2 prev cur hprev hcur
      simpa [trueRanges] using this

/-- C3: The engine's TrueRange is `high - low` at index 0 and
`max(high - low, |high - prevClose|, |low - prevClose|)` at every later
index; a one-bar sequence with high 105 and low 95 yields `[10]`. -/
theorem trueRange_first_and_later (bars : List Bar) :
    (∀ b rest, bars = b :: rest → (trueRanges bars)[0]? = some (b.high - b.low)) ∧
    (∀ i, 0 < i → i < bars.length →
      ∃ prev cur, bars[i - 1]? = some prev ∧ bars[i]? = some cur ∧
        (trueRanges bars)[i]? =
          some (max (cur.high - cur.low)
            (max |cur.high - prev.close| |cur.low - prev.close|))) ∧
    trueRanges [⟨0, 100, 105, 95, 100, 1⟩] = [10] := by
  refine ⟨?_, ?_, ?_⟩
  · rintro b rest rfl
    simp [trueRanges]
  · intro i h0 hlen
    obtain ⟨prev, cur, h1, h2, h3⟩ := trueRanges_getElem_pos bars i h0 hlen
    exact ⟨prev, cur, h1, h2, by simpa [trueRangeAux] using h3⟩
  · norm_num [trueRanges, trueRangesFrom]

/-- C6: The ATR entry at index `i` is the absent marker exactly when
`i < period - 1`; in particular an input shorter than `period` has every
entry absent (the guard makes this a defined case, not an error). -/
theorem atr_absent_exactly_during_warmup (bars : List Bar) (period i : Nat)
    (hp : 0 < period) (hi : i < bars.length) :
    ((atr_values period (trueRanges bars))[i]? = some none ↔ i < period - 1) ∧
    (bars.length < period → (atr_values period (trueRanges bars))[i]? = some none) := by
  have hlen := trueRanges_length bars
  constructor
  · exact atr_values_absent_iff period (trueRanges bars) i hp (by omega)
  · intro hshort
    exact atr_values_getElem_warmup period (trueRanges bars) i (by omega) (by omega)

/-- Witness for C6: `demoBars` with period 3 at index 1. -/
theorem atr_absent_exactly_during_warmup_witness :
    0 < 3 ∧ 1 < demoBars.length ∧
    (((atr_values 3 (trueRanges demoBars))[1]? = some none ↔ 1 < 3 - 1) ∧
    (demoBars.length < 3 → (atr_values 3 (trueRanges demoBars))[1]? = some none)) :=
  ⟨by decide, by decide,
    atr_absent_exactly_during_warmup demoBars 3 1 (by decide) (by decide)⟩

/-- C10: Every recursive ATR value is `wilderStep` of its predecessor and
the current true range, and lies between their min and max (a convex
combination); with non-negative true ranges every defined ATR value is
non-negative. -/
theorem atr_convex_combination_invariant (period : Nat) (tr : List ℚ)
    (hp : 0 < period) :
    (∀ i, period ≤ i → i < tr.length →
      ∃ a t, (atr_values period tr)[i - 1]? = some (some a) ∧ tr[i]? = some t ∧
        (atr_values period tr)[i]? = some (some (wilderStep period a t)) ∧
        min a t ≤ wilderStep period a t ∧ wilderStep period a t ≤ max a t) ∧
    ((∀ t ∈ tr, 0 ≤ t) →
      ∀ (i : Nat) (x : ℚ), (atr_values period tr)[i]? = some (some x) → 0 ≤ x) := by
  have hqnn : (0 : ℚ) ≤ (period : ℚ) := by positivity
  constructor
  · intro i hpi hin
    obtain ⟨a, t, h1, h2, h3⟩ := atr_values_recursion period tr i hp hpi hin
    exact ⟨a, t, h1, h2, h3,
      (wilderStep_between period a t hp).1, (wilderStep_between period a t hp).2⟩
  · intro hnn i x hx
    have hseednn : 0 ≤ (tr.take period).sum / (period : ℚ) := by
      apply div_nonneg _ hqnn
      exact List.sum_nonneg (fun y hy => hnn y (List.take_subset period tr hy))
    have hi : i < tr.length := by
      rcases List.getElem?_eq_some_iff.mp hx with ⟨h, _⟩
      rwa [atr_values_length period tr hp] at h
    rcases Nat.lt_or_ge i period with hlt | hge
    · rcases Nat.lt_or_ge i (period - 1) with hw | hseed
      · rw [atr_values_getElem_warmup period tr i hi hw] at hx
        simp at hx
      · have hieq : i = period - 1 := by omega
        subst hieq
        have hn : period ≤ tr.length := by omega
        rw [atr_values_getElem_seed period tr hn] at hx
        have hx2 : (tr.take period).sum / (period : ℚ) = x := by
          simpa using hx
        rw [← hx2]
        exact hseednn
    · rw [atr_values_getElem_tail period tr i hp hge, List.getElem?_map] at hx
      rcases Option.map_eq_some'.mp hx with ⟨y, hy, hxy⟩
      have hyx : y = x := by simpa using hxy
      subst hyx
      exact wilderFrom_nonneg period hp (tr.drop period) _ hseednn
        (fun t' ht' => hnn t' (List.drop_subset period tr ht')) y
        (List.getElem?_mem hy)

/-- Witness for C10 at period 3 on the spec's example true ranges. -/
theorem atr_convex_combination_invariant_witness :
    0 < 3 ∧
    ((∀ i, 3 ≤ i → i < ([10, 8, 12, 6, 4] : List ℚ).length →
      ∃ a t, (atr_values 3 [10, 8, 12, 6, 4])[i - 1]? = some (some a) ∧
        ([10, 8, 12, 6, 4] : List ℚ)[i]? = some t ∧
        (atr_values 3 [10, 8, 12, 6, 4])[i]? = some (some (wilderStep 3 a t)) ∧
        min a t ≤ wilderStep 3 a t ∧ wilderStep 3 a t ≤ max a t) ∧
    ((∀ t ∈ ([10, 8, 12, 6, 4] : List ℚ), 0 ≤ t) →
      ∀ (i : Nat) (x : ℚ), (atr_values 3 [10, 8, 12, 6, 4])[i]? = some (some x) → 0 ≤ x)) :=
  ⟨by decide, atr_convex_combination_invariant 3 [10, 8, 12, 6, 4] (by decide)⟩

/-- C7: The period-by-granularity lookup is a closed enumeration: it
yields 14 bars for daily, 14*24 = 336 for hourly and 14*1440 for minute
data, and raises the unsupported-timeframe error on every other string,
succeeding on no input outside the enumeration. -/
theorem period_lookup_closed_enumeration :
    determine_period_for_14_days "daily" = Except.ok (14 * 1) ∧
    determine_period_for_14_days "hourly" = Except.ok (14 * 24) ∧
    determine_period_for_14_days "minute" = Except.ok (14 * 1440) ∧
    determine_period_for_14_days "hourly" = Except.ok 336 ∧
    determine_period_for_14_days "weekly" =
      Except.error ("Unsupported timeframe: " ++ "weekly") ∧
    ∀ s : String, s ≠ "minute" → s ≠ "hourly" → s ≠ "daily" →
      determine_period_for_14_days s =
        Except.error ("Unsupported timeframe: " ++ s) := by
  refine ⟨rfl, rfl, rfl, rfl, rfl, ?_⟩
  intro s h1 h2 h3
  unfold determine_period_for_14_days
  rw [if_neg h1, if_neg h2, if_neg h3]

/-- C9: Determinism: the aggregator and both ATR computations are pure
functions of their input sequence and parameters, so two runs on equal
inputs and parameters yield equal outputs. -/
theorem aggregator_and_atr_deterministic (bars1 bars2 : List Bar)
    (period1 period2 : Nat) (h : bars1 = bars2) (hper : period1 = period2) :
    aggregate_to_hourly bars1 = aggregate_to_hourly bars2 ∧
    atr_values period1 (trueRanges bars1) = atr_values period2 (trueRanges bars2) ∧
    calculate_atr (bars1.map Bar.high) (bars1.map Bar.low) (bars1.map Bar.close) period1 =
      calculate_atr (bars2.map Bar.high) (bars2.map Bar.low) (bars2.map Bar.close) period2 := by
  subst h; subst hper; exact ⟨rfl, rfl, rfl⟩

/-- Witness for C9: two runs on `demoBars` with period 3. -/
theorem aggregator_and_atr_deterministic_witness :
    aggregate_to_hourly demoBars = aggregate_to_hourly demoBars ∧
    atr_values 3 (trueRanges demoBars) = atr_values 3 (trueRanges demoBars) ∧
    calculate_atr (demoBars.map Bar.high) (demoBars.map Bar.low)
        (demoBars.map Bar.close) 3 =
      calculate_atr (demoBars.map Bar.high) (demoBars.map Bar.low)
        (demoBars.map Bar.close) 3 :=
  aggregator_and_atr_deterministic demoBars demoBars 3 3 rfl rfl

theorem foldMax_mem_and_bounds (a : ℚ) (l : List ℚ) :
    (foldMax a l = a ∨ foldMax a l ∈ l) ∧
      a ≤ foldMax a l ∧ ∀ x ∈ l, x ≤ foldMax a l := by
  induction l generalizing a with
  | nil => simp [foldMax]
  | cons y ys ih =>
    have h := ih (max a y)
    have hfold : foldMax a (y :: ys) = foldMax (max a y) ys := rfl
    refine ⟨?_, ?_, ?_⟩
    · rcases h.1 with heq | hmem
      · rcases le_total a y with hay | hya
        · right; rw [hfold, heq, max_eq_right hay]; simp
        · left; rw [hfold, heq, max_eq_left hya]
      · right; rw [hfold]; exact List.mem_cons_of_mem y hmem
    · rw [hfold]; exact le_trans (le_max_left a y) h.2.1
    · intro x hx
      rcases List.mem_cons.mp hx with rfl | hx2
      · rw [hfold]; exact le_trans (le_max_right a x) h.2.1
      · rw [hfold]; exact h.2.2 x hx2

theorem foldMin_mem_and_bounds (a : ℚ) (l : List ℚ) :
    (foldMin a l = a ∨ foldMin a l ∈ l) ∧
      foldMin a l ≤ a ∧ ∀ x ∈ l, foldMin a l ≤ x := by
  induction l generalizing a with
  | nil => simp [foldMin]
  | cons y ys ih =>
    have h := ih (min a y)
    have hfold : foldMin a (y :: ys) = foldMin (min a y) ys := rfl
    refine ⟨?_, ?_, ?_⟩
    · rcases h.1 with heq | hmem
      · rcases le_total a y with hay | hya
        · left; rw [hfold, heq, min_eq_left hay]
        · right; rw [hfold, heq, min_eq_right hya]; simp
      · right; rw [hfold]; exact List.mem_cons_of_mem y hmem
    · rw [hfold]; exact le_trans h.2.1 (min_le_left a y)
    · intro x hx
      rcases List.mem_cons.mp hx with rfl | hx2
      · rw [hfold]; exact le_trans h.2.1 (min_le_right a x)
      · rw [hfold]; exact h.2.2 x hx2

theorem pairwise_timestamp_le_getLast :
    ∀ l : List Bar, (l.Pairwise fun x y => x.timestamp ≤ y.timestamp) →
      ∀ lastB, l.getLast? = some lastB →
        ∀ x ∈ l, x.timestamp ≤ lastB.timestamp := by
  intro l
  induction l with
  | nil => intro _ lastB hl; simp at hl
  | cons b rest ih =>
    intro h lastB hl x hx
    cases rest with
    | nil =>
      have hb : b = lastB := by simpa using hl
      have hxb : x = b := by simpa using hx
      subst hb; subst hxb
      exact le_refl _
    | cons c r2 =>
      have hl2 : (c :: r2).getLast? = some lastB := by
        simpa [List.getLast?_cons_cons] using hl
      rcases List.mem_cons.mp hx with rfl | hx2
      · exact (List.pairwise_cons.mp h).1 lastB (List.mem_of_getLast?_eq_some hl2)
      · exact ih (List.pairwise_cons.mp h).2 lastB hl2 x hx2

theorem aggBucket_singleton (b : Bar) : aggBucket b [] = b := by
  cases b with
  | mk t o h l c v => simp [aggBucket, foldMax, foldMin]

theorem aggregate_to_hourly_eq_self (bars : List Bar)
    (hdistinct : (bars.map bucketKey).Nodup) :
    aggregate_to_hourly bars = bars := by
  unfold aggregate_to_hourly
  rw [List.dedup_eq_self.mpr hdistinct]
  induction bars with
  | nil => rfl
  | cons b rest ih =>
    have hmapcons : (bucketKey b :: rest.map bucketKey).Nodup := by
      simpa using hdistinct
    have hparts := List.nodup_cons.mp hmapcons
    have hnotin : bucketKey b ∉ rest.map bucketKey := hparts.1
    have hnd2 : (rest.map bucketKey).Nodup := hparts.2
    have hhead : bucketOf (b :: rest) (bucketKey b) = [b] := by
      unfold bucketOf
      rw [List.filter_cons_of_pos (by simp)]
      have hrest : rest.filter (fun x => bucketKey x == bucketKey b) = [] := by
        rw [List.filter_eq_nil_iff]
        intro x hx hkey
        apply hnotin
        rw [List.mem_map]
        exact ⟨x, hx, by simpa using hkey⟩
      rw [hrest]
    have hcong : ∀ k ∈ rest.map bucketKey,
        bucketOf (b :: rest) k = bucketOf rest k := by
      intro k hk
      unfold bucketOf
      rw [List.filter_cons_of_neg]
      simp only [beq_iff_eq]
      intro hkb
      exact hnotin (hkb ▸ hk)
    rw [List.map_cons, List.filterMap_cons, hhead]
    show aggBucket b [] :: _ = b :: rest
    rw [aggBucket_singleton]
    have hstep : (rest.map bucketKey).filterMap (fun k =>
        match bucketOf (b :: rest) k with
        | [] => none
        | c :: tl => some (aggBucket c tl)) =
      (rest.map bucketKey).filterMap (fun k =>
        match bucketOf rest k with
        | [] => none
        | c :: tl => some (aggBucket c tl)) := by
      apply List.filterMap_congr
      intro k hk
      rw [hcong k hk]
    rw [hstep, ih hnd2]

/-- C4: Every output bar of the hourly aggregator comes from a non-empty
bucket and carries that bucket's first open (and timestamp), maximal high,
minimal low, last close and summed volume; with chronologically sorted
input, "first"/"last" in input order is first/last by timestamp. -/
theorem aggregate_bucket_ohlcv (bars : List Bar)
    (hsorted : bars.Pairwise fun x y => x.timestamp ≤ y.timestamp) :
    ∀ out ∈ aggregate_to_hourly bars, ∃ k b rest lastB,
      bucketOf bars k = b :: rest ∧
      (b :: rest).getLast? = some lastB ∧
      (∀ x ∈ b :: rest, b.timestamp ≤ x.timestamp) ∧
      (∀ x ∈ b :: rest, x.timestamp ≤ lastB.timestamp) ∧
      out.timestamp = b.timestamp ∧
      out.open_ = b.open_ ∧
      out.high ∈ (b :: rest).map Bar.high ∧
      (∀ x ∈ (b :: rest).map Bar.high, x ≤ out.high) ∧
      out.low ∈ (b :: rest).map Bar.low ∧
      (∀ x ∈ (b :: rest).map Bar.low, out.low ≤ x) ∧
      out.close = lastB.close ∧
      out.volume = ((b :: rest).map Bar.volume).sum := by
  intro out hout
  unfold aggregate_to_hourly at hout
  rcases List.mem_filterMap.mp hout with ⟨k, hk, hfk⟩
  cases hbk : bucketOf bars k with
  | nil => rw [hbk] at hfk; simp at hfk
  | cons b rest =>
    rw [hbk] at hfk
    have hout_eq : out = aggBucket b rest := by
      have : some (aggBucket b rest) = some out := hfk
      simpa using this.symm
    have hsub : (bucketOf bars k).Sublist bars := by
      unfold bucketOf; exact List.filter_sublist bars
    have hpair : (b :: rest).Pairwise fun x y => x.timestamp ≤ y.timestamp := by
      rw [← hbk]; exact List.Pairwise.sublist hsub hsorted
    obtain ⟨lastB, hlast⟩ : ∃ lb, (b :: rest).getLast? = some lb :=
      ⟨_, List.getLast?_eq_getLast _ (by simp)⟩
    have hmax := foldMax_mem_and_bounds b.high (rest.map Bar.high)
    have hmin := foldMin_mem_and_bounds b.low (rest.map Bar.low)
    refine ⟨k, b, rest, lastB, hbk, hlast, ?_, ?_, ?_, ?_, ?_, ?_, ?_, ?_, ?_, ?_⟩
    · intro x hx
      rcases List.mem_cons.mp hx with rfl | hx2
      · exact le_refl _
      · exact (List.pairwise_cons.mp hpair).1 x hx2
    · exact pairwise_timestamp_le_getLast _ hpair lastB hlast
    · rw [hout_eq]; rfl
    · rw [hout_eq]; rfl
    · rw [hout_eq]
      show foldMax b.high (rest.map Bar.high) ∈ (b :: rest).map Bar.high
      rw [List.map_cons]
      rcases hmax.1 with heq | hmem
      · rw [heq]; simp
      · exact List.mem_cons_of_mem _ hmem
    · intro x hx
      rw [hout_eq]
      rw [List.map_cons] at hx
      rcases List.mem_cons.mp hx with rfl | hx2
      · exact hmax.2.1
      · exact hmax.2.2 x hx2
    · rw [hout_eq]
      show foldMin b.low (rest.map Bar.low) ∈ (b :: rest).map Bar.low
      rw [List.map_cons]
      rcases hmin.1 with heq | hmem
      · rw [heq]; simp
      · exact List.mem_cons_of_mem _ hmem
    · intro x hx
      rw [hout_eq]
      rw [List.map_cons] at hx
      rcases List.mem_cons.mp hx with rfl | hx2
      · exact hmin.2.1
      · exact hmin.2.2 x hx2
    · rw [hout_eq]
      show ((b :: rest).getLast (List.cons_ne_nil b rest)).close = lastB.close
      have := List.getLast?_eq_getLast (b :: rest) (List.cons_ne_nil b rest)
      rw [this] at hlast
      rw [Option.some_inj.mp hlast]
    · rw [hout_eq]; rfl

/-- Witness for C4: the first output bar of the aggregator on the sorted
`hourlyDemoBars`. -/
theorem aggregate_bucket_ohlcv_witness :
    ∃ k b rest lastB,
      bucketOf hourlyDemoBars k = b :: rest ∧
      (b :: rest).getLast? = some lastB ∧
      (∀ x ∈ b :: rest, b.timestamp ≤ x.timestamp) ∧
      (∀ x ∈ b :: rest, x.timestamp ≤ lastB.timestamp) ∧
      (Bar.mk 3600 104 110 100 106 5).timestamp = b.timestamp ∧
      (Bar.mk 3600 104 110 100 106 5).open_ = b.open_ ∧
      (Bar.mk 3600 104 110 100 106 5).high ∈ (b :: rest).map Bar.high ∧
      (∀ x ∈ (b :: rest).map Bar.high, x ≤ (Bar.mk 3600 104 110 100 106 5).high) ∧
      (Bar.mk 3600 104 110 100 106 5).low ∈ (b :: rest).map Bar.low ∧
      (∀ x ∈ (b :: rest).map Bar.low, (Bar.mk 3600 104 110 100 106 5).low ≤ x) ∧
      (Bar.mk 3600 104 110 100 106 5).close = lastB.close ∧
      (Bar.mk 3600 104 110 100 106 5).volume = ((b :: rest).map Bar.volume).sum :=
  aggregate_bucket_ohlcv hourlyDemoBars (by decide) (Bar.mk 3600 104 110 100 106 5)
    (by rw [aggregate_to_hourly_eq_self hourlyDemoBars (by decide)]; simp [hourlyDemoBars])

theorem filterMap_id_of_some {α : Type} (f : α → Option α) :
    ∀ l : List α, (∀ a ∈ l, f a = some a) → l.filterMap f = l := by
  intro l
  induction l with
  | nil => intro _; rfl
  | cons a rest ih =>
    intro h
    rw [List.filterMap_cons, h a (by simp), ih (fun b hb => h b (by simp [hb]))]

theorem aggregate_keys (bars : List Bar) :
    (aggregate_to_hourly bars).map bucketKey = (bars.map bucketKey).dedup := by
  unfold aggregate_to_hourly
  rw [List.map_filterMap]
  apply filterMap_id_of_some
  intro k hk
  have hk2 : k ∈ bars.map bucketKey := List.mem_dedup.mp hk
  rcases List.mem_map.mp hk2 with ⟨b, hb, hkey⟩
  have hmem : b ∈ bucketOf bars k := by
    unfold bucketOf
    rw [List.mem_filter]
    exact ⟨hb, by simp [hkey]⟩
  cases hbk : bucketOf bars k with
  | nil => rw [hbk] at hmem; simp at hmem
  | cons hd tl =>
    have hhd : bucketKey hd = k := by
      have hhd_mem : hd ∈ bucketOf bars k := by rw [hbk]; simp
      unfold bucketOf at hhd_mem
      rcases List.mem_filter.mp hhd_mem with ⟨_, hp⟩
      simpa using hp
    simp only [hbk]
    show some (bucketKey (aggBucket hd tl)) = some k
    have : bucketKey (aggBucket hd tl) = bucketKey hd := rfl
    rw [this, hhd]

/-- C5: A bucket key appears in the aggregator's output exactly when some
input bar maps to it, every input bar belongs to exactly one output bucket,
and no bucket is emitted twice (and no non-empty one suppressed). -/
theorem aggregate_bucket_coverage (bars : List Bar) :
    (∀ k : Nat, k ∈ (aggregate_to_hourly bars).map bucketKey ↔
      ∃ b ∈ bars, bucketKey b = k) ∧
    (∀ b ∈ bars, ∃! k : Nat,
      k ∈ (aggregate_to_hourly bars).map bucketKey ∧ bucketKey b = k) ∧
    ((aggregate_to_hourly bars).map bucketKey).Nodup := by
  have hkeys := aggregate_keys bars
  refine ⟨?_, ?_, ?_⟩
  · intro k
    rw [hkeys, List.mem_dedup, List.mem_map]
  · intro b hb
    refine ⟨bucketKey b, ⟨?_, rfl⟩, ?_⟩
    · rw [hkeys, List.mem_dedup]
      exact List.mem_map_of_mem bucketKey hb
    · rintro k2 ⟨_, rfl⟩; rfl
  · rw [hkeys]; exact List.nodup_dedup _

/-- C8: Aggregating a sequence whose bars already occupy pairwise
distinct hour buckets returns the sequence unchanged. -/
theorem aggregate_hourly_idempotent (bars : List Bar)
    (hdistinct : (bars.map bucketKey).Nodup) :
    aggregate_to_hourly bars = bars :=
  aggregate_to_hourly_eq_self bars hdistinct

/-- Witness for C8: three bars in three distinct hours. -/
theorem aggregate_hourly_idempotent_witness :
    aggregate_to_hourly hourlyDemoBars = hourlyDemoBars :=
  aggregate_hourly_idempotent hourlyDemoBars (by decide)

theorem trRolling_length_bars (bars : List Bar) :
    (trRolling (bars.map Bar.high) (bars.map Bar.low)
      (bars.map Bar.close)).length = bars.length := by
  simp [trRolling, shift1]

theorem trRolling_getElem_zero (b : Bar) (rest : List Bar) :
    (trRolling ((b :: rest).map Bar.high) ((b :: rest).map Bar.low)
      ((b :: rest).map Bar.close))[0]? = some none := by
  simp [trRolling, shift1]

theorem trRolling_getElem_pos (bars : List Bar) (i : Nat)
    (h0 : 0 < i) (hlen : i < bars.length) :
    ∃ prev cur, bars[i - 1]? = some prev ∧ bars[i]? = some cur ∧
      (trRolling (bars.map Bar.high) (bars.map Bar.low) (bars.map Bar.close))[i]? =
        some (some (trueRangeAux prev.close cur)) := by
  obtain ⟨j, rfl⟩ : ∃ j, i = j + 1 := ⟨i - 1, by omega⟩
  obtain ⟨prev, hprev⟩ : ∃ p, bars[j]? = some p :=
    ⟨_, List.getElem?_eq_getElem (by omega)⟩
  obtain ⟨cur, hcur⟩ : ∃ c, bars[j + 1]? = some c :=
    ⟨_, List.getElem?_eq_getElem hlen⟩
  refine ⟨prev, cur, by simpa using hprev, hcur, ?_⟩
  have hH : (bars.map Bar.high)[j + 1]? = some cur.high := by
    rw [List.getElem?_map, hcur]; rfl
  have hL : (bars.map Bar.low)[j + 1]? = some cur.low := by
    rw [List.getElem?_map, hcur]; rfl
  have hS : (shift1 (bars.map Bar.close))[j + 1]? = some (some prev.close) := by
    unfold shift1
    rw [List.getElem?_take, if_pos (by simpa using hlen), List.getElem?_cons_succ,
      List.getElem?_map, List.getElem?_map, hprev]
    rfl
  have hz2 : ((bars.map Bar.low).zip (shift1 (bars.map Bar.close)))[j + 1]? =
      some (cur.low, some prev.close) :=
    List.getElem?_zip_eq_some.mpr ⟨hL, hS⟩
  have hz1 : ((bars.map Bar.high).zip
      ((bars.map Bar.low).zip (shift1 (bars.map Bar.close))))[j + 1]? =
      some (cur.high, (cur.low, some prev.close)) :=
    List.getElem?_zip_eq_some.mpr ⟨hH, hz2⟩
  unfold trRolling
  rw [List.getElem?_map, hz1]
  rfl

theorem rollingMean_one_getElem (l : List (Option ℚ)) (i : Nat) (x : ℚ)
    (hx : (rollingMean 1 l)[i]? = some (some x)) :
    l[i]? = some (some x) := by
  unfold rollingMean at hx
  rw [List.getElem?_map] at hx
  by_cases hlen : i < l.length
  · rw [List.getElem?_range (by simpa using hlen)] at hx
    rw [Option.map_some'] at hx
    rw [if_pos (by omega)] at hx
    obtain ⟨o, ho⟩ : ∃ o, l[i]? = some o := ⟨_, List.getElem?_eq_getElem hlen⟩
    have h2 : (l.take i).length = i := by
      rw [List.length_take]; omega
    have hwin : (l.take (i + 1)).drop (i + 1 - 1) = [o] := by
      have h1 : i + 1 - 1 = i := by omega
      rw [h1, List.take_succ, ho, List.drop_left' h2]
      rfl
    rw [hwin] at hx
    cases o with
    | none => simp at hx
    | some v =>
      simp at hx
      rw [ho, hx]
  · rw [List.getElem?_eq_none (by simpa using not_lt.mp hlen)] at hx
    simp at hx

theorem atr_values_one (tr : List ℚ) (i : Nat) (t : ℚ) (ht : tr[i]? = some t) :
    (atr_values 1 tr)[i]? = some (some t) := by
  have hlen : i < tr.length := (List.getElem?_eq_some_iff.mp ht).1
  rcases Nat.eq_zero_or_pos i with rfl | hi
  · have h := atr_values_getElem_seed 1 tr (by omega)
    cases tr with
    | nil => simp at hlen
    | cons t0 rest =>
      have ht0 : t0 = t := by simpa using ht
      subst ht0
      simpa using h
  · obtain ⟨a, t2, h1, h2, h3⟩ := atr_values_recursion 1 tr i (by omega) hi hlen
    have ht2 : t = t2 := by rw [ht] at h2; simpa using h2
    subst ht2
    have hws : wilderStep 1 a t = t := by
      simp [wilderStep]
    rw [h3, hws]

/-- The rolling ATR of `cexBars` with period 2 at index 2 is 10. -/
theorem cex_rolling_eval :
    (calculate_atr (cexBars.map Bar.high) (cexBars.map Bar.low)
      (cexBars.map Bar.close) 2)[2]? = some (some 10) := by
  norm_num [calculate_atr, cexBars, trRolling, shift1, rollingMean,
    List.range_succ, List.filterMap]

/-- The recursive Wilder ATR of `cexBars` with period 2 at index 2 is 21/2. -/
theorem cex_wilder_eval :
    (atr_values 2 (trueRanges cexBars))[2]? = some (some (21 / 2)) := by
  norm_num [atr_values, trueRanges, trueRangesFrom, trueRangeAux, wilderFrom,
    wilderStep, cexBars, List.replicate]

/-- Counterexample to C2 as stated: on `cexBars` with period 2 both
implementations are defined at index 2 yet the rolling one returns 10 and
the Wilder recursion 21/2. -/
theorem rolling_vs_wilder_disagree :
    (calculate_atr (cexBars.map Bar.high) (cexBars.map Bar.low)
      (cexBars.map Bar.close) 2)[2]? = some (some 10) ∧
    (atr_values 2 (trueRanges cexBars))[2]? = some (some (21 / 2)) ∧
    ¬ ((10 : ℚ) = 21 / 2) :=
  ⟨cex_rolling_eval, cex_wilder_eval, by norm_num⟩

/-- C2 amended: For period 1 — and only in such degenerate cases, see
the counterexample for period 2 — the rolling-window ATR agrees with the
recursive Wilder ATR at every index where both are defined. -/
theorem calculate_atr_eq_wilder_atr_period_one (bars : List Bar) (i : Nat) (x y : ℚ)
    (hx : (calculate_atr (bars.map Bar.high) (bars.map Bar.low)
      (bars.map Bar.close) 1)[i]? = some (some x))
    (hy : (atr_values 1 (trueRanges bars))[i]? = some (some y)) :
    x = y := by
  have hL : (trRolling (bars.map Bar.high) (bars.map Bar.low)
      (bars.map Bar.close))[i]? = some (some x) :=
    rollingMean_one_getElem _ i x hx
  have hlenL : i < (trRolling (bars.map Bar.high) (bars.map Bar.low)
      (bars.map Bar.close)).length := (List.getElem?_eq_some_iff.mp hL).1
  have hlen : i < bars.length := by rwa [trRolling_length_bars] at hlenL
  rcases Nat.eq_zero_or_pos i with rfl | hi
  · cases bars with
    | nil => simp at hlen
    | cons b rest =>
      rw [trRolling_getElem_zero b rest] at hL
      simp at hL
  · obtain ⟨prev, cur, hprev, hcur, htrR⟩ := trRolling_getElem_pos bars i hi hlen
    rw [htrR] at hL
    have hx2 : trueRangeAux prev.close cur = x := by simpa using hL
    obtain ⟨prev2, cur2, hprev2, hcur2, htr⟩ := trueRanges_getElem_pos bars i hi hlen
    have hpe : prev = prev2 := by
      rw [hprev] at hprev2; exact Option.some_inj.mp hprev2
    have hce : cur = cur2 := by
      rw [hcur] at hcur2; exact Option.some_inj.mp hcur2
    subst hpe; subst hce
    have hy2 := atr_values_one (trueRanges bars) i (trueRangeAux prev.close cur) htr
    rw [hy2] at hy
    have hy3 : trueRangeAux prev.close cur = y := by simpa using hy
    rw [← hx2, ← hy3]

/-- The rolling ATR of `cexBars` with period 1 at index 1 is 8. -/
theorem cex_rolling_one_eval :
    (calculate_atr (cexBars.map Bar.high) (cexBars.map Bar.low)
      (cexBars.map Bar.close) 1)[1]? = some (some 8) := by
  norm_num [calculate_atr, cexBars, trRolling, shift1, rollingMean,
    List.range_succ, List.filterMap]

/-- The recursive Wilder ATR of `cexBars` with period 1 at index 1 is 8. -/
theorem cex_wilder_one_eval :
    (atr_values 1 (trueRanges cexBars))[1]? = some (some 8) := by
  norm_num [atr_values, trueRanges, trueRangesFrom, trueRangeAux, wilderFrom,
    wilderStep, cexBars, List.replicate]

/-- Witness for the amended C2: both implementations with period 1 give 8 at
index 1 of `cexBars`, and the amended theorem identifies the two values. -/
theorem calculate_atr_eq_wilder_atr_period_one_witness : (8 : ℚ) = 8 :=
  calculate_atr_eq_wilder_atr_period_one cexBars 1 8 8
    cex_rolling_one_eval cex_wilder_one_eval
